import Mathlib

/-!
# A verification development for the `cleaner` repository

This file shallowly embeds the target-resolution and deletion-execution
engine of the `cleaner` CLI tool (src/main.rs, src/utils.rs, src/args.rs)
and proves properties about it.

Modelling conventions:
* The filesystem is an inductive rose tree `FsTree`; directory metadata
  (`fs::metadata(path).len()`) is an `Option Nat` stored on each node
  (`none` models a failing metadata syscall).
* Paths are lists of segments; the root's path is `[rootName]`.
* The external `glob` crate is modelled by `globMatch` (literal characters,
  `?` for a single character, `*` for any sequence), matching over the
  basename only, as the code uses it.
* `stdin` is modelled as an explicit list of reply strings; printed lines
  relevant to the claims are modelled as explicit string lists.
* The `rayon` parallel deletion of the force branch is modelled as a
  sequential fold over the materialized target list (the source's
  `par_iter().map(remove).sum()`), which is one of its linearizations.
-/

/-! ## Glob patterns (model of the external `glob` crate, spec §4.2) -/

/-- Glob matching over character lists: `*` matches any sequence, `?` any
single character, everything else is literal.  Models
`glob::Pattern::matches` as used on directory basenames (which contain no
path separators). -/
def globMatch : List Char → List Char → Bool
  | [], s => s.isEmpty
  | '*' :: ps, s => s.tails.any (fun s' => globMatch ps s')
  | '?' :: _, [] => false
  | '?' :: ps, _ :: cs => globMatch ps cs
  | _ :: _, [] => false
  | p :: ps, c :: cs => p == c && globMatch ps cs

/-- `Pattern::new(p)` then `pat.matches(name)`: compiled-pattern matching on
a basename. -/
def patMatches (p : String) (name : String) : Bool :=
  globMatch p.toList name.toList

/-- `patterns.iter().any(|pat| pat.matches(file_name))`. -/
def anyMatch (pats : List String) (name : String) : Bool :=
  pats.any (fun p => patMatches p name)

/-- The match condition of `clean_directories` (src/main.rs:146-147) on a
directory basename: matches some include pattern and no exclude pattern. -/
def targetPred (inc ex : List String) (name : String) : Bool :=
  anyMatch inc name && !(anyMatch ex name)

/-! ## Character-level models of the Rust string operations used

Lean's own `String.split`, `String.trim` and `String.toLower` are
position-based and do not reduce inside the kernel, so the Rust standard
library operations the source uses are modelled character-wise. -/

/-- Split a character list at every separator; like Rust's `str::split`,
the empty input yields one empty segment and separators at the ends yield
empty segments. -/
def splitCharList (sep : Char) : List Char → List (List Char)
  | [] => [[]]
  | c :: cs =>
      match splitCharList sep cs with
      | [] => [[c]]
      | h :: t => if c == sep then [] :: h :: t else (c :: h) :: t

/-- Rust's `str::split(sep)`, collected to a list. -/
def rustSplit (sep : Char) (s : String) : List String :=
  (splitCharList sep s.data).map String.mk

/-- Rust's `str::to_lowercase` on the ASCII strings involved here. -/
def strToLower (s : String) : String := String.mk (s.data.map Char.toLower)

/-- ASCII whitespace, for the trim model. -/
def isWsp (c : Char) : Bool := c == ' ' || c == '\t' || c == '\n' || c == '\r'

/-- Rust's `str::trim`: whitespace stripped from both ends. -/
def strTrim (s : String) : String :=
  String.mk (((s.data.dropWhile isWsp).reverse.dropWhile isWsp).reverse)

/-! ## Project kinds and default directory lists (src/args.rs, src/utils.rs) -/

/-- `ProjectKind` from src/args.rs. -/
inductive ProjectKind where
  | all | ide | rust | python | java | node | go | csharp | cpp | php | ruby
deriving DecidableEq, Repr, Fintype

/-- `impl fmt::Display for ProjectKind` (src/args.rs:41-58). -/
def displayKind : ProjectKind → String
  | .all => "all"
  | .ide => "ide"
  | .rust => "rust"
  | .python => "python"
  | .java => "java"
  | .node => "node"
  | .go => "go"
  | .csharp => "csharp"
  | .cpp => "cpp"
  | .php => "php"
  | .ruby => "ruby"

/-- src/utils.rs:84 (`ProjectKind::Rust`). -/
def rustDirs : List String := ["target", "out", "build"]

/-- src/utils.rs:85-92 (`ProjectKind::Python`). -/
def pythonDirs : List String :=
  ["__pycache__", ".venv", "venv", "env", ".mypy_cache", ".pytest_cache"]

/-- src/utils.rs:93-101 (`ProjectKind::Java`). -/
def javaDirs : List String :=
  ["build", "out", "target", "bin", "classes", "generated-sources",
   "generated-test-sources"]

/-- src/utils.rs:102-113 (`ProjectKind::Ide`). -/
def ideDirs : List String :=
  [".idea", ".vs", ".vscode", ".DS_Store", ".history", ".classpath",
   ".project", ".settings", "xcuserdata", "*.iml"]

/-- src/utils.rs:114-123 (`ProjectKind::Node`). -/
def nodeDirs : List String :=
  ["node_modules", "dist", "build", ".next", ".nuxt", ".angular",
   ".svelte-kit", "coverage"]

/-- src/utils.rs:124 (`ProjectKind::Go`). -/
def goDirs : List String := ["bin", "pkg", "out"]

/-- src/utils.rs:125 (`ProjectKind::CSharp`). -/
def csharpDirs : List String := ["bin", "obj", "out"]

/-- src/utils.rs:126-135 (`ProjectKind::Cpp`). -/
def cppDirs : List String :=
  ["build", "out", "bin", "CMakeFiles", "cmake-build-*", "Makefile",
   "*.o", "*.obj"]

/-- src/utils.rs:136 (`ProjectKind::Php`). -/
def phpDirs : List String := ["vendor", "out", "build", "cache"]

/-- src/utils.rs:137 (`ProjectKind::Ruby`). -/
def rubyDirs : List String := [".bundle", "vendor", "log", "tmp", "coverage"]

/-- Order-stable deduplication: keeps the first occurrence of each element. -/
def dedupSeen : List String → List String → List String
  | _, [] => []
  | seen, x :: xs =>
      if x ∈ seen then dedupSeen seen xs else x :: dedupSeen (x :: seen) xs

/-- Order-stable, duplicate-free form of a list (first occurrences kept). -/
def dedupKeepFirst (l : List String) : List String := dedupSeen [] l

/-- Modelled from the spec: the source's `default_dirs_for_kind`
(src/utils.rs:82-139) has no branch for `ProjectKind::All`, although
`All` is declared in src/args.rs and `default_dirs_for_kind(&ProjectKind::All)`
is called from src/main.rs:84, so the `All` arm of the table is missing from
the sources provided.  The spec (§3, §6) defines "all" as the order-stable,
deduplicated union of every other kind's default pattern list.  The union is
taken in the declaration order of the kinds in src/args.rs. -/
def allDirs : List String :=
  dedupKeepFirst
    (ideDirs ++ rustDirs ++ pythonDirs ++ javaDirs ++ nodeDirs ++ goDirs ++
     csharpDirs ++ cppDirs ++ phpDirs ++ rubyDirs)

/-- `default_dirs_for_kind` (src/utils.rs:82-139); the `All` arm is the
spec-modelled `allDirs`. -/
def default_dirs_for_kind : ProjectKind → List String
  | .all => allDirs
  | .ide => ideDirs
  | .rust => rustDirs
  | .python => pythonDirs
  | .java => javaDirs
  | .node => nodeDirs
  | .go => goDirs
  | .csharp => csharpDirs
  | .cpp => cppDirs
  | .php => phpDirs
  | .ruby => rubyDirs

/-! ## CLI arguments and config file (src/args.rs, src/main.rs:31-53) -/

/-- The `Args` struct (src/args.rs:73-134); the logging fields and the
config-file path are omitted (the parsed config is passed separately, the
logger is an external collaborator). -/
structure Args where
  path : String
  dirs : Option String
  exclude : Option String
  kind : Option ProjectKind
  force : Bool
  dry_run : Bool
  interactive : Bool
  ci : Bool
  max_depth : Nat
deriving DecidableEq, Repr

/-- `KindConfig` (src/main.rs:37-40). -/
structure KindConfig where
  dirs : Option (List String)
deriving DecidableEq, Repr

/-- `ExcludeConfig` (src/main.rs:42-45). -/
structure ExcludeConfig where
  patterns : Option (List String)
deriving DecidableEq, Repr

/-- `Config` (src/main.rs:31-35); the `HashMap<String, KindConfig>` is
modelled as an association list with first-match lookup. -/
structure Config where
  kinds : Option (List (String × KindConfig))
  exclude : Option ExcludeConfig
deriving DecidableEq, Repr

/-- `HashMap::get` on the association-list model. -/
def lookupAssoc (m : List (String × KindConfig)) (key : String) :
    Option KindConfig :=
  (m.find? (fun kv => kv.1 == key)).map (·.2)

/-- The config-file tier of `determine_dirs_to_clean` (src/main.rs:71-80):
`Some` exactly when the config is present, has a `kinds` table, the table
has the resolved kind key, and that entry declares a `dirs` list. -/
def configKindDirs (args : Args) (config : Option Config) :
    Option (List String) :=
  config.bind fun cfg =>
    cfg.kinds.bind fun kinds =>
      (lookupAssoc kinds
          ((args.kind.map (fun k => strToLower (displayKind k))).getD "all")).bind
        fun kindCfg => kindCfg.dirs

/-- `determine_dirs_to_clean` (src/main.rs:66-89): CLI `--dirs` split on
commas (verbatim, empty segments kept), else config-file kind dirs, else
the built-in defaults for the kind (`All` when no kind given). -/
def determine_dirs_to_clean (args : Args) (config : Option Config) :
    List String :=
  match args.dirs with
  | some ds => rustSplit ',' ds
  | none =>
      match configKindDirs args config with
      | some ds => ds
      | none => default_dirs_for_kind (args.kind.getD .all)

/-- `determine_exclude` (src/main.rs:91-104): CLI `--exclude` split on
commas with empty segments removed, else config-file exclude patterns,
else empty. -/
def determine_exclude (args : Args) (config : Option Config) : List String :=
  match args.exclude with
  | some ex => (rustSplit ',' ex).filter (fun s => !(s == ""))
  | none =>
      match config.bind (fun c => c.exclude.bind (fun e => e.patterns)) with
      | some ps => ps
      | none => []

/-! ## Execution policy selection (src/main.rs:157-191) -/

/-- The three execution branches of `clean_directories`
(src/main.rs:157-191). -/
inductive ExecPolicy where
  | dryRunPolicy
  | interactivePolicy
  | parallelForce
deriving DecidableEq, Repr

/-- The branch structure of `clean_directories` (src/main.rs:157, 164, 181):
`if dry_run { .. } else if interactive && !force { .. } else { .. }`. -/
def choosePolicy (dry_run interactive force : Bool) : ExecPolicy :=
  if dry_run then .dryRunPolicy
  else if interactive && !force then .interactivePolicy
  else .parallelForce

/-! ## The filesystem model -/

/-- A filesystem tree: files carry their size, directories carry the size
reported by `fs::metadata` on the directory itself (`none` models a failing
metadata call) and their children. -/
inductive FsTree where
  | file (name : String) (size : Nat)
  | dir (name : String) (meta : Option Nat) (children : List FsTree)

/-- The basename of a node. -/
def FsTree.nameOf : FsTree → String
  | .file n _ => n
  | .dir n _ _ => n

/-- `file_type().is_dir()` for a node. -/
def FsTree.isDirB : FsTree → Bool
  | .file _ _ => false
  | .dir _ _ _ => true

/-- What `fs::metadata(path).map(|m| m.len())` reports for a node. -/
def FsTree.metaOf : FsTree → Option Nat
  | .file _ s => some s
  | .dir _ m _ => m

/-- The children of a node (empty for files). -/
def FsTree.childrenOf : FsTree → List FsTree
  | .file _ _ => []
  | .dir _ _ cs => cs

/-- A directory entry yielded by the walk (model of `walkdir::DirEntry`):
its path (as segments from the root, the root's path being `[rootName]`),
its basename, whether it is a directory, and its depth (root = 0). -/
structure Entry where
  path : List String
  name : String
  isDir : Bool
  depth : Nat
deriving DecidableEq, Repr

/-- Whether the walk may descend from depth `d` to depth `d + 1`:
`max_depth == 0` means unlimited (the `WalkDir` builder is left unbounded,
src/main.rs:132-134), otherwise `walkdir` yields entries of depth at most
`max_depth`, so it descends from `d` only when `d < max_depth`. -/
def descendB (md d : Nat) : Bool := md == 0 || d < md

mutual
/-- Depth-first pre-order walk of a tree (model of `WalkDir::new(path)`,
optionally bounded by `max_depth`): yields the node itself, then — when the
depth bound allows — the walks of its children. `pre` is the path of the
parent directory. -/
def walkT (pre : List String) (d md : Nat) : FsTree → List Entry
  | .file n _ => [⟨pre ++ [n], n, false, d⟩]
  | .dir n _ cs =>
      ⟨pre ++ [n], n, true, d⟩ ::
        (if descendB md d then walkF (pre ++ [n]) (d + 1) md cs else [])

/-- Walk of a forest of siblings, in order. -/
def walkF (pre : List String) (d md : Nat) : List FsTree → List Entry
  | [] => []
  | c :: cs => walkT pre d md c ++ walkF pre d md cs
end

/-- The walk-and-match phase of `clean_directories` (src/main.rs:139-154):
the paths of the yielded directory entries whose basename matches some
include pattern and no exclude pattern, in discovery order. -/
def targetsOf (t : FsTree) (inc ex : List String) (md : Nat) :
    List (List String) :=
  ((walkT [] 0 md t).filter
      (fun e => e.isDir && targetPred inc ex e.name)).map (·.path)

/-- The walk-and-match phase as the source writes it, over the raw stream of
`Result` entries (src/main.rs:139-154).  Each stream element is
`Except.error msg` when `walkdir` reports an unreadable entry; the source
does `let f = file.unwrap();` on it, which panics — modelled as `none` for
the whole collection. -/
def collectTargetsR (inc ex : List String) :
    List (Except String Entry) → Option (List (List String))
  | [] => some []
  | .error _ :: _ => none
  | .ok e :: rest =>
      (collectTargetsR inc ex rest).map
        (fun ts => if e.isDir && targetPred inc ex e.name
                   then e.path :: ts else ts)

/-! ## Deletion (`fs::remove_dir_all`) -/

/-- `fs::remove_dir_all` below the root: removes, inside the sibling forest
`cs`, the directory at the (nonempty) relative path `p`.  A path whose next
segment names no directory removes nothing (the failing removal's result is
discarded by the source, src/main.rs:175, 187). -/
def removeInsideF : List String → List FsTree → List FsTree
  | [], cs => cs
  | [x], cs => cs.filter (fun c => !(c.isDirB && c.nameOf == x))
  | x :: y :: rest, cs =>
      cs.map (fun c =>
        match c with
        | .file n s => .file n s
        | .dir n m gs =>
            if n == x then .dir n m (removeInsideF (y :: rest) gs)
            else .dir n m gs)

/-- `fs::remove_dir_all(path)` on the whole tree, `path` given as segments
whose first element should be the root's name; removing the root itself
yields `none`. -/
def removeAbs : FsTree → List String → Option FsTree
  | t, [] => some t
  | t, [x] => if t.isDirB && t.nameOf == x then none else some t
  | .file n s, _ :: _ :: _ => some (.file n s)
  | .dir n m cs, x :: y :: rest =>
      if n == x then some (.dir n m (removeInsideF (y :: rest) cs))
      else some (.dir n m cs)

/-- Removal lifted to a possibly-already-removed tree. -/
def removeO (o : Option FsTree) (p : List String) : Option FsTree :=
  o.bind (fun t => removeAbs t p)

/-- Path resolution for `fs::metadata` inside a sibling forest: follow the
(nonempty) path segment by segment, descending only through directories,
and report `metaOf` of the final node when the path resolves. -/
def sizeAtF : List String → List FsTree → Option Nat
  | [], _ => none
  | [x], cs => (cs.find? (fun c => c.nameOf == x)).bind (·.metaOf)
  | x :: y :: rest, cs =>
      match cs.find? (fun c => c.isDirB && c.nameOf == x) with
      | some c => sizeAtF (y :: rest) c.childrenOf
      | none => none

/-- `fs::metadata(path).map(|m| m.len())` at an absolute path, whose first
segment should be the root's name. -/
def sizeAt (t : FsTree) (p : List String) : Option Nat := sizeAtF p [t]

/-- Metadata lookup on a possibly-removed tree. -/
def sizeO (o : Option FsTree) (p : List String) : Option Nat :=
  o.bind (fun t => sizeAt t p)

/-! ## The three execution branches (src/main.rs:157-191) -/

/-- State and record of the deletion phase: the (possibly removed) tree,
the accumulated byte total, the paths actually passed to
`fs::remove_dir_all`, and the paths skipped by the operator. -/
structure ExecState where
  tree : Option FsTree
  bytes : Nat
  deleted : List (List String)
  skipped : List (List String)

/-- The dry-run branch (src/main.rs:157-163): for each target add the
metadata size when available (`if let Ok(meta) = fs::metadata(path)`), and
mutate nothing. -/
def dryRunExec (t : FsTree) (targets : List (List String)) : ExecState :=
  { tree := some t
    bytes := targets.foldl (fun acc p => acc + (sizeAt t p).getD 0) 0
    deleted := []
    skipped := [] }

/-- The trimmed, lowercased reply test used both by `confirm_deletion`
(src/main.rs:120-121) and by the interactive branch (src/main.rs:171-172):
`input.trim().to_lowercase()` equals `"y"` or `"yes"`. -/
def affirmative (s : String) : Bool :=
  let i := strToLower (strTrim s)
  i == "y" || i == "yes"

/-- The interactive branch (src/main.rs:164-180): one `read_line` per
target (an exhausted stream reads as `""`); an affirmative reply captures
the size, removes the directory and records the deletion; any other reply
records a skip; the loop always continues to the next target. -/
def interactiveExec : List (List String) → List String → ExecState → ExecState
  | [], _, st => st
  | p :: ps, answers, st =>
      let a := answers.headD ""
      if affirmative a then
        interactiveExec ps answers.tail
          { tree := removeO st.tree p
            bytes := st.bytes + (sizeO st.tree p).getD 0
            deleted := st.deleted ++ [p]
            skipped := st.skipped }
      else
        interactiveExec ps answers.tail { st with skipped := st.skipped ++ [p] }

/-- The parallel-force branch (src/main.rs:181-191), modelled as a
sequential fold in target-list order: for each target capture the size
(`unwrap_or(0)`), remove it, and sum the sizes. -/
def forceExec : List (List String) → ExecState → ExecState
  | [], st => st
  | p :: ps, st =>
      forceExec ps
        { tree := removeO st.tree p
          bytes := st.bytes + (sizeO st.tree p).getD 0
          deleted := st.deleted ++ [p]
          skipped := st.skipped }

/-- Result of `clean_directories`: the returned pair `(count, total_bytes)`
(src/main.rs:192) together with the resulting filesystem and the recorded
deletion/skip events. -/
structure CleanResult where
  count : Nat
  total_bytes : Nat
  tree : Option FsTree
  deleted : List (List String)
  skipped : List (List String)

/-- `clean_directories` (src/main.rs:126-193): materialize the target list
from the walk, then run the execution branch selected by
`dry_run` / `interactive && !force` / otherwise. -/
def clean_directories (t : FsTree) (dirs exclude : List String)
    (dry_run : Bool) (max_depth : Nat) (interactive force : Bool)
    (answers : List String) : CleanResult :=
  let targets := targetsOf t dirs exclude max_depth
  let st :=
    match choosePolicy dry_run interactive force with
    | .dryRunPolicy => dryRunExec t targets
    | .interactivePolicy => interactiveExec targets answers ⟨some t, 0, [], []⟩
    | .parallelForce => forceExec targets ⟨some t, 0, [], []⟩
  { count := targets.length
    total_bytes := st.bytes
    tree := st.tree
    deleted := st.deleted
    skipped := st.skipped }

/-! ## The main flow (src/main.rs:203-236) -/

/-- The lines printed by `confirm_deletion` before reading the reply
(src/main.rs:112-116). -/
def promptLines (dirs : List String) : List String :=
  "WARNING: The following directories will be deleted recursively:" ::
    dirs.map (fun d => "  - " ++ d) ++
      ["Are you sure you want to proceed? [y/N]: "]

/-- `confirm_deletion` (src/main.rs:107-122): `true` immediately under
`force`, otherwise the trimmed lowercased reply must be `"y"` or `"yes"`. -/
def confirm_deletion (force : Bool) (reply : String) : Bool :=
  if force then true else affirmative reply

/-- What a run of `main` produces: the modelled printed lines, the final
filesystem, and the `clean_directories` result when the run got that far
(`none` exactly when the run was aborted before any traversal). -/
structure MainResult where
  outputs : List String
  tree : Option FsTree
  cleanResult : Option CleanResult

/-- `main` (src/main.rs:203-236) over the model: validate the root path
(src/main.rs:56-63), resolve dirs and excludes, ask for confirmation unless
forced, then clean.  `confirmReply` is the line read by `confirm_deletion`,
`answers` the lines read by the interactive branch. -/
def mainRun (args : Args) (pathExists : Bool) (config : Option Config)
    (t : FsTree) (confirmReply : String) (answers : List String) :
    Except String MainResult :=
  if pathExists then
    let dirs := determine_dirs_to_clean args config
    let excl := determine_exclude args config
    if confirm_deletion args.force confirmReply then
      let r := clean_directories t dirs excl args.dry_run args.max_depth
        args.interactive args.force answers
      .ok { outputs := if args.force then [] else promptLines dirs
            tree := r.tree
            cleanResult := some r }
    else
      .ok { outputs := promptLines dirs ++ ["Aborted by user."]
            tree := some t
            cleanResult := none }
  else
    .error ("Path " ++ args.path ++ " do not exist")

/-! ## Shared concrete fixtures for the theorems below -/

/-- Arguments as produced by `--dirs a,b --force` at root `/r`. -/
def argsAB : Args :=
  { path := "/r", dirs := some "a,b", exclude := none, kind := none
    force := true, dry_run := false, interactive := false, ci := false
    max_depth := 0 }

/-- Arguments as produced by `--dirs a,,b --force` at root `/r`. -/
def argsCex : Args :=
  { argsAB with dirs := some "a,,b" }

/-- A parsed config file declaring `kinds.all.dirs = ["c"]`. -/
def cfgC : Config :=
  { kinds := some [("all", { dirs := some ["c"] })], exclude := none }

/-- The arguments of the C10 witness: a dry-run invocation without
`--force`. -/
def argsDryNoForce : Args :=
  { path := "/r", dirs := some "target", exclude := none, kind := none
    force := false, dry_run := true, interactive := false, ci := false
    max_depth := 0 }

mutual
/-- All directories of a tree, with their absolute paths (the spec-side
enumeration for C1): `pre` is the path of the parent directory. -/
def dirsOfT (pre : List String) : FsTree → List (List String × String)
  | .file _ _ => []
  | .dir n _ cs => (pre ++ [n], n) :: dirsOfF (pre ++ [n]) cs

/-- All directories of a sibling forest with their absolute paths. -/
def dirsOfF (pre : List String) : List FsTree → List (List String × String)
  | [] => []
  | c :: cs => dirsOfT pre c ++ dirsOfF pre cs
end

/-- The deep tree of the C4 scenario: the root contains `a/b/target/f.txt`. -/
def exampleDeepTree : FsTree :=
  .dir "root" (some 1)
    [.dir "a" (some 1)
      [.dir "b" (some 1)
        [.dir "target" (some 9) [.file "f.txt" 2]]]]

/-- The tree of the concrete interactive scenario: the root `r` contains a
single matching directory `target` holding one file. -/
def exampleTargetTree : FsTree :=
  .dir "r" (some 1) [.dir "target" (some 7) [.file "f" 3]]

/-- The root entry of the C7 stream fixture. -/
def entryRoot : Entry := ⟨["r"], "r", true, 0⟩

/-- A matching directory entry appearing after the error in the fixture. -/
def entryTarget : Entry := ⟨["r", "target"], "target", true, 1⟩

/-! ## Definitions for C8: well-formed trees and the one-pass pruning -/

/-- No string occurs twice in the list. -/
def distinctB : List String → Bool
  | [] => true
  | x :: xs => !(decide (x ∈ xs)) && distinctB xs

mutual
/-- A well-formed filesystem: within every directory the children's names
are pairwise distinct (as on a real filesystem). -/
def wfT : FsTree → Bool
  | .file _ _ => true
  | .dir _ _ cs => distinctB (cs.map FsTree.nameOf) && wfF cs

/-- Well-formedness of a sibling forest. -/
def wfF : List FsTree → Bool
  | [] => true
  | c :: cs => wfT c && wfF cs
end

mutual
/-- One-pass pruning (the specification of the deletion phase's effect):
remove, in a single top-down traversal that visits exactly the nodes the
depth-bounded walk yields, every directory whose basename satisfies the
match condition.  `d` is the node's depth. -/
def pruneT (inc ex : List String) (md d : Nat) : FsTree → Option FsTree
  | .file n s => some (.file n s)
  | .dir n m cs =>
      if targetPred inc ex n then none
      else some (.dir n m
        (if descendB md d then pruneF inc ex md (d + 1) cs else cs))

/-- One-pass pruning of a sibling forest. -/
def pruneF (inc ex : List String) (md d : Nat) : List FsTree → List FsTree
  | [] => []
  | c :: cs =>
      match pruneT inc ex md d c with
      | none => pruneF inc ex md d cs
      | some c' => c' :: pruneF inc ex md d cs
end

/-- The matched targets among the entries a tree's walk yields. -/
def targetsT (inc ex : List String) (pre : List String) (d md : Nat)
    (t : FsTree) : List (List String) :=
  ((walkT pre d md t).filter
      (fun e => e.isDir && targetPred inc ex e.name)).map (·.path)

/-- The matched targets among the entries a forest's walk yields. -/
def targetsF (inc ex : List String) (pre : List String) (d md : Nat)
    (cs : List FsTree) : List (List String) :=
  ((walkF pre d md cs).filter
      (fun e => e.isDir && targetPred inc ex e.name)).map (·.path)

/-- The nested fixture for the C8 witness: the matching directory `build`
sits inside the matching directory `target`. -/
def exampleNestedTree : FsTree :=
  .dir "r" (some 1)
    [.dir "target" (some 7) [.dir "build" (some 5) []], .file "x" 2]

/-! ## C2 — the "all" kind is the deduplicated union of the other kinds -/

set_option maxRecDepth 8192

/-- C2: the default pattern list of kind `all` is the deduplicated,
order-stable union of the default lists of every other kind: it is
duplicate-free, it is an order-preserving sublist of the concatenation of
the other kinds' lists, every pattern of every kind occurs in it, each of
its patterns comes from some non-`all` kind, and the pattern `"target"`
(present in both the Rust and the Java defaults) occurs exactly once. -/
theorem all_kind_is_dedup_union :
    (default_dirs_for_kind .all).Nodup ∧
    List.Sublist (default_dirs_for_kind .all)
      (ideDirs ++ rustDirs ++ pythonDirs ++ javaDirs ++ nodeDirs ++ goDirs ++
       csharpDirs ++ cppDirs ++ phpDirs ++ rubyDirs) ∧
    (∀ k : ProjectKind, ∀ p ∈ default_dirs_for_kind k,
      p ∈ default_dirs_for_kind .all) ∧
    (∀ p ∈ default_dirs_for_kind ProjectKind.all,
      ∃ k : ProjectKind, ¬(k = .all) ∧ p ∈ default_dirs_for_kind k) ∧
    (default_dirs_for_kind .all).count "target" = 1 := by
  exact ⟨by decide, by decide, by decide, by decide, by decide⟩

/-! ## C3 — precedence of CLI dirs over config over kind defaults -/

/-- C3 counterexample: the claim says CLI `--dirs` is split on commas
"with empty segments removed", but `determine_dirs_to_clean`
(src/main.rs:68-70) keeps empty segments (unlike `determine_exclude`,
src/main.rs:94, which filters them): with `--dirs a,,b` the effective
include list is `["a", "", "b"]`, not `["a", "b"]`. -/
theorem cli_dirs_keep_empty_segments :
    determine_dirs_to_clean argsCex (some cfgC) = ["a", "", "b"] ∧
    ¬ determine_dirs_to_clean argsCex (some cfgC) =
        ((rustSplit ',' "a,,b").filter (fun s => !(s == ""))) := by
  exact ⟨by decide, by decide⟩

/-- C3 (amended): if the CLI dirs option is present the effective include
list is exactly that string split on comma — verbatim, empty segments
kept — and the config file and kind defaults are ignored; otherwise the
config file's dirs list for the resolved kind is used when present;
otherwise the kind-lookup defaults (kind `all` when no kind is given). -/
theorem dirs_precedence (args : Args) (config : Option Config) :
    (∀ s, args.dirs = some s →
      determine_dirs_to_clean args config = rustSplit ',' s) ∧
    (args.dirs = none → ∀ ds, configKindDirs args config = some ds →
      determine_dirs_to_clean args config = ds) ∧
    (args.dirs = none → configKindDirs args config = none →
      determine_dirs_to_clean args config =
        default_dirs_for_kind (args.kind.getD .all)) := by
  refine ⟨fun s hs => ?_, fun h ds hds => ?_, fun h hn => ?_⟩
  · simp [determine_dirs_to_clean, hs]
  · simp [determine_dirs_to_clean, h, hds]
  · simp [determine_dirs_to_clean, h, hn]

/-- C3 witness: with CLI dirs `"a,b"` and a config file specifying `["c"]`
for the active kind, the effective include list is exactly `["a", "b"]`. -/
theorem dirs_precedence_witness :
    determine_dirs_to_clean argsAB (some cfgC) = ["a", "b"] := by
  have h := (dirs_precedence argsAB (some cfgC)).1 "a,b" rfl
  rw [h]; decide

/-! ## C6 — execution-policy selection -/

/-- C6: the execution policy is selected with priority `dry_run` first,
then `interactive` when `force` is not set, and parallel-force for every
remaining flag combination; in particular `interactive` together with
`force` runs the parallel-force policy. -/
theorem policy_priority :
    (∀ d i f : Bool,
      (choosePolicy d i f = .dryRunPolicy ↔ d = true) ∧
      (choosePolicy d i f = .interactivePolicy ↔
        (d = false ∧ i = true ∧ f = false)) ∧
      (choosePolicy d i f = .parallelForce ↔
        (d = false ∧ (i = false ∨ f = true)))) ∧
    choosePolicy false true true = .parallelForce := by
  exact ⟨by decide, by decide⟩

/-! ## C1 and C4 — walk-and-match correctness and the depth bound -/

/-- Mutual induction for `FsTree` and sibling forests, tree form. -/
theorem fsInd (P : FsTree → Prop) (Q : List FsTree → Prop)
    (hfile : ∀ n s, P (FsTree.file n s))
    (hdir : ∀ n m cs, Q cs → P (FsTree.dir n m cs))
    (hnil : Q [])
    (hcons : ∀ t ts, P t → Q ts → Q (t :: ts)) :
    ∀ t, P t :=
  fun t => @FsTree.rec P Q hfile hdir hnil hcons t

/-- Mutual induction for `FsTree` and sibling forests, forest form. -/
theorem fsIndF (P : FsTree → Prop) (Q : List FsTree → Prop)
    (hfile : ∀ n s, P (FsTree.file n s))
    (hdir : ∀ n m cs, Q cs → P (FsTree.dir n m cs))
    (hnil : Q [])
    (hcons : ∀ t ts, P t → Q ts → Q (t :: ts)) :
    ∀ ts, Q ts :=
  fun ts =>
    List.rec hnil
      (fun t ts' ih => hcons t ts' (fsInd P Q hfile hdir hnil hcons t) ih) ts

theorem descendB_zero (d : Nat) : descendB 0 d = true := rfl

/-- A pair is a directory of the tree iff the unlimited walk yields a
matching directory entry (at any starting depth). -/
theorem mem_dirsOfT_iff (t : FsTree) : ∀ pre d p nm,
    (p, nm) ∈ dirsOfT pre t ↔
      ∃ e, e ∈ walkT pre d 0 t ∧ e.path = p ∧ e.name = nm ∧ e.isDir = true := by
  refine fsInd
    (fun t => ∀ pre d p nm,
      (p, nm) ∈ dirsOfT pre t ↔
        ∃ e, e ∈ walkT pre d 0 t ∧ e.path = p ∧ e.name = nm ∧ e.isDir = true)
    (fun ts => ∀ pre d p nm,
      (p, nm) ∈ dirsOfF pre ts ↔
        ∃ e, e ∈ walkF pre d 0 ts ∧ e.path = p ∧ e.name = nm ∧ e.isDir = true)
    ?_ ?_ ?_ ?_ t
  · intro n s pre d p nm
    simp [dirsOfT, walkT]
  · intro n m cs ih pre d p nm
    simp only [dirsOfT, walkT, descendB_zero, if_pos, List.mem_cons]
    constructor
    · rintro (h | h)
      · exact ⟨⟨pre ++ [n], n, true, d⟩, by simp [Prod.ext_iff] at h ⊢; tauto⟩
      · obtain ⟨e, he, h1, h2, h3⟩ := (ih (pre ++ [n]) (d + 1) p nm).1 h
        exact ⟨e, by simp [he], h1, h2, h3⟩
    · rintro ⟨e, he, h1, h2, h3⟩
      rcases List.mem_cons.1 (List.mem_cons.2 he) with he' | he'
      · left; subst he'; simp_all
      · right; exact (ih (pre ++ [n]) (d + 1) p nm).2 ⟨e, he', h1, h2, h3⟩
  · intro pre d p nm
    simp [dirsOfF, walkF]
  · intro c cs ihc ihcs pre d p nm
    simp only [dirsOfF, walkF, List.mem_append]
    constructor
    · rintro (h | h)
      · obtain ⟨e, he, hrest⟩ := (ihc pre d p nm).1 h
        exact ⟨e, Or.inl he, hrest⟩
      · obtain ⟨e, he, hrest⟩ := (ihcs pre d p nm).1 h
        exact ⟨e, Or.inr he, hrest⟩
    · rintro ⟨e, he, hrest⟩
      rcases he with he' | he'
      · exact Or.inl ((ihc pre d p nm).2 ⟨e, he', hrest⟩)
      · exact Or.inr ((ihcs pre d p nm).2 ⟨e, he', hrest⟩)

/-- C1: a path is produced by the walk-and-match phase iff it is a
directory of the tree whose basename matches at least one include pattern
and no exclude pattern.  The right-hand side does not mention the walk or
its order, so the target set is determined by the tree alone; matching is
applied to the basename `nm` only, never to the path `p`. -/
theorem targets_exact (t : FsTree) (inc ex : List String) (p : List String) :
    p ∈ targetsOf t inc ex 0 ↔
      ∃ nm, (p, nm) ∈ dirsOfT [] t ∧ targetPred inc ex nm = true := by
  simp only [targetsOf, List.mem_map, List.mem_filter]
  constructor
  · rintro ⟨e, ⟨he, hp⟩, rfl⟩
    rw [Bool.and_eq_true] at hp
    exact ⟨e.name, (mem_dirsOfT_iff t [] 0 e.path e.name).2
      ⟨e, he, rfl, rfl, hp.1⟩, hp.2⟩
  · rintro ⟨nm, hmem, hpred⟩
    obtain ⟨e, he, hp, hn, hd⟩ := (mem_dirsOfT_iff t [] 0 p nm).1 hmem
    exact ⟨e, ⟨he, by rw [hd, hn, hpred]; rfl⟩, hp⟩

/-- Depth bound of the walk: with a positive bound `md` and a start depth
`d ≤ md`, every yielded entry has depth at most `md`. -/
theorem walk_depth_le (t : FsTree) : ∀ pre d md, 0 < md → d ≤ md →
    ∀ e ∈ walkT pre d md t, e.depth ≤ md := by
  refine fsInd
    (fun t => ∀ pre d md, 0 < md → d ≤ md →
      ∀ e ∈ walkT pre d md t, e.depth ≤ md)
    (fun ts => ∀ pre d md, 0 < md → d ≤ md →
      ∀ e ∈ walkF pre d md ts, e.depth ≤ md)
    ?_ ?_ ?_ ?_ t
  · intro n s pre d md hmd hd e he
    simp [walkT] at he
    simp [he, hd]
  · intro n m cs ih pre d md hmd hd e he
    simp only [walkT, List.mem_cons] at he
    rcases he with rfl | he
    · exact hd
    · by_cases hdes : descendB md d = true
      · rw [if_pos hdes] at he
        have hlt : d < md := by
          simp [descendB, Nat.pos_iff_ne_zero.1 hmd] at hdes
          exact hdes
        exact ih (pre ++ [n]) (d + 1) md hmd hlt e he
      · rw [if_neg hdes] at he
        simp at he
  · intro pre d md hmd hd e he
    simp [walkF] at he
  · intro c cs ihc ihcs pre d md hmd hd e he
    simp only [walkF, List.mem_append] at he
    rcases he with he | he
    · exact ihc pre d md hmd hd e he
    · exact ihcs pre d md hmd hd e he

/-- C4: with a positive `max_depth` no yielded entry (hence no target) has
depth greater than the bound, the root having depth 0; with `max_depth = 0`
the traversal is unlimited (every directory of the tree is yielded); and in
the scenario where the root contains `a/b/target/f.txt`, a forced run with
`--max-depth=1` finds no target and leaves the tree — in particular
`a/b/target` — intact. -/
theorem max_depth_bound (t : FsTree) (md : Nat) (hmd : 0 < md) :
    (∀ e ∈ walkT [] 0 md t, e.depth ≤ md) ∧
    (∀ pr ∈ dirsOfT [] t,
      ∃ e ∈ walkT [] 0 0 t, e.path = pr.1 ∧ e.isDir = true) ∧
    (clean_directories exampleDeepTree (default_dirs_for_kind .all) [] false 1
        false true []).count = 0 ∧
    (clean_directories exampleDeepTree (default_dirs_for_kind .all) [] false 1
        false true []).tree = some exampleDeepTree := by
  refine ⟨walk_depth_le t [] 0 md hmd (Nat.zero_le md), ?_, by rfl, by rfl⟩
  intro pr hpr
  obtain ⟨e, he, hp, _, hd⟩ := (mem_dirsOfT_iff t [] 0 pr.1 pr.2).1 (by
    cases pr; exact hpr)
  exact ⟨e, he, hp, hd⟩

/-- C4 witness: the theorem applied at the scenario tree with bound 1. -/
theorem max_depth_bound_witness :
    (0 < 1 ∧ ∀ e ∈ walkT [] 0 1 exampleDeepTree, e.depth ≤ 1) ∧
    (clean_directories exampleDeepTree (default_dirs_for_kind .all) [] false 1
        false true []).tree = some exampleDeepTree :=
  ⟨⟨Nat.zero_lt_one, (max_depth_bound exampleDeepTree 1 Nat.zero_lt_one).1⟩,
   (max_depth_bound exampleDeepTree 1 Nat.zero_lt_one).2.2.2⟩

/-! ## C5 — dry-run mutates nothing -/

/-- C5: under dry-run the filesystem is returned unchanged and nothing is
deleted; each target contributes its metadata size, or zero when metadata
is unavailable, to the byte total; and a subsequent real (forced) run sees
the identical tree, hence computes the identical target set. -/
theorem dry_run_no_mutation (t : FsTree) (inc ex : List String) (md : Nat)
    (i f : Bool) (ans : List String) :
    (clean_directories t inc ex true md i f ans).tree = some t ∧
    (clean_directories t inc ex true md i f ans).deleted = [] ∧
    (clean_directories t inc ex true md i f ans).total_bytes =
      (targetsOf t inc ex md).foldl (fun acc p => acc + (sizeAt t p).getD 0) 0 ∧
    (clean_directories t inc ex true md i f ans).count =
      (targetsOf t inc ex md).length ∧
    (∀ t', (clean_directories t inc ex true md i f ans).tree = some t' →
      targetsOf t' inc ex md = targetsOf t inc ex md) := by
  refine ⟨rfl, rfl, rfl, rfl, ?_⟩
  intro t' ht'
  have : t' = t := by
    simpa [clean_directories, choosePolicy, dryRunExec] using ht'.symm
  rw [this]

/-- C5 witness: the theorem applied at a concrete tree whose target has
metadata 7 while the root's own metadata call fails. -/
theorem dry_run_no_mutation_witness :
    (clean_directories (FsTree.dir "r" none [.dir "target" (some 7) [.file "f" 3]])
        ["target"] [] true 0 false false []).tree =
      some (FsTree.dir "r" none [.dir "target" (some 7) [.file "f" 3]]) ∧
    targetsOf (FsTree.dir "r" none [.dir "target" (some 7) [.file "f" 3]])
        ["target"] [] 0 =
      targetsOf (FsTree.dir "r" none [.dir "target" (some 7) [.file "f" 3]])
        ["target"] [] 0 ∧
    (clean_directories (FsTree.dir "r" none [.dir "target" (some 7) [.file "f" 3]])
        ["target"] [] true 0 false false []).total_bytes = 7 :=
  ⟨(dry_run_no_mutation (FsTree.dir "r" none [.dir "target" (some 7) [.file "f" 3]])
      ["target"] [] 0 false false []).1,
   (dry_run_no_mutation (FsTree.dir "r" none [.dir "target" (some 7) [.file "f" 3]])
      ["target"] [] 0 false false []).2.2.2.2 _
     (dry_run_no_mutation (FsTree.dir "r" none [.dir "target" (some 7) [.file "f" 3]])
      ["target"] [] 0 false false []).1,
   rfl⟩

/-! ## C9 — interactive mode -/

/-- A run of the interactive loop in which every reply is non-affirmative
only appends every target to the skip record. -/
theorem interactiveExec_all_no (ps : List (List String)) : ∀ ans st,
    (∀ a ∈ ans, affirmative a = false) →
    interactiveExec ps ans st = { st with skipped := st.skipped ++ ps } := by
  induction ps with
  | nil => intro ans st h; simp [interactiveExec]
  | cons p ps ih =>
      intro ans st h
      have ha : affirmative (ans.headD "") = false := by
        cases ans with
        | nil => rfl
        | cons a as => exact h a (List.mem_cons_self a as)
      have htail : ∀ a ∈ ans.tail, affirmative a = false := by
        intro a hmem
        exact h a (List.mem_of_mem_tail hmem)
      simp only [interactiveExec, ha, Bool.false_eq_true, if_neg, ite_false]
      rw [ih ans.tail _ htail]
      simp

/-- C9 counterexample: in interactive mode answering `"n"` to the single
prompt performs no deletion, yet the returned directory count — which
`main` (src/main.rs:232) prints as `"Removed {} directories"` — is the
target count 1, not the deleted count 0: the code never reports a deleted
count of zero. -/
theorem interactive_all_no_reports_target_count :
    (clean_directories exampleTargetTree ["target"] [] false 0 true false
        ["n"]).deleted = [] ∧
    (clean_directories exampleTargetTree ["target"] [] false 0 true false
        ["n"]).count = 1 ∧
    ¬ (clean_directories exampleTargetTree ["target"] [] false 0 true false
        ["n"]).count = 0 := by
  exact ⟨rfl, rfl, by decide⟩

/-- C9 (amended): in interactive mode each affirmative reply (trimmed,
lowercased `"y"`/`"yes"`) deletes that target and each other reply skips
that target only, the loop continuing either way; a run answering `"n"`
to every prompt performs zero deletions, leaves the tree unchanged, frees
zero bytes and skips every target — but the count the run reports is the
target count, not the number of deletions performed (the code tracks no
separate deleted count). -/
theorem interactive_semantics :
    (∀ (p : List String) ps a ans st, affirmative a = true →
      interactiveExec (p :: ps) (a :: ans) st =
        interactiveExec ps ans
          { tree := removeO st.tree p
            bytes := st.bytes + (sizeO st.tree p).getD 0
            deleted := st.deleted ++ [p]
            skipped := st.skipped }) ∧
    (∀ (p : List String) ps a ans st, affirmative a = false →
      interactiveExec (p :: ps) (a :: ans) st =
        interactiveExec ps ans { st with skipped := st.skipped ++ [p] }) ∧
    (∀ (t : FsTree) inc ex md ans, (∀ a ∈ ans, affirmative a = false) →
      (clean_directories t inc ex false md true false ans).deleted = [] ∧
      (clean_directories t inc ex false md true false ans).tree = some t ∧
      (clean_directories t inc ex false md true false ans).total_bytes = 0 ∧
      (clean_directories t inc ex false md true false ans).skipped =
        targetsOf t inc ex md ∧
      (clean_directories t inc ex false md true false ans).count =
        (targetsOf t inc ex md).length) := by
  refine ⟨?_, ?_, ?_⟩
  · intro p ps a ans st ha
    simp [interactiveExec, ha]
  · intro p ps a ans st ha
    simp [interactiveExec, ha]
  · intro t inc ex md ans h
    have hrun := interactiveExec_all_no (targetsOf t inc ex md) ans
      ⟨some t, 0, [], []⟩ h
    constructor
    · simp [clean_directories, choosePolicy, hrun]
    constructor
    · simp [clean_directories, choosePolicy, hrun]
    constructor
    · simp [clean_directories, choosePolicy, hrun]
    constructor
    · simp [clean_directories, choosePolicy, hrun]
    · rfl

/-- C9 witness: the all-`"n"` clause applied at the concrete scenario. -/
theorem interactive_semantics_witness :
    (clean_directories exampleTargetTree ["target"] [] false 0 true false
        ["n"]).tree = some exampleTargetTree ∧
    (clean_directories exampleTargetTree ["target"] [] false 0 true false
        ["n"]).skipped = targetsOf exampleTargetTree ["target"] [] 0 :=
  ⟨(interactive_semantics.2.2 exampleTargetTree ["target"] [] 0 ["n"]
      (by intro a ha; simp at ha; rw [ha]; rfl)).2.1,
   (interactive_semantics.2.2 exampleTargetTree ["target"] [] 0 ["n"]
      (by intro a ha; simp at ha; rw [ha]; rfl)).2.2.2.1⟩

/-! ## C7 — an unreadable entry mid-walk is fatal -/

/-- C7 counterexample: the claim says an unreadable subdirectory mid-walk
is skipped with a warning and traversal continues; but the collection loop
does `let f = file.unwrap();` (src/main.rs:142), so an `Err` walk entry
panics and aborts the whole run — with the error removed the same stream
yields the target. -/
theorem walk_error_is_fatal :
    collectTargetsR ["target"] []
      [.ok entryRoot, .error "permission denied", .ok entryTarget] = none ∧
    collectTargetsR ["target"] [] [.ok entryRoot, .ok entryTarget] =
      some [["r", "target"]] := by
  exact ⟨rfl, rfl⟩

/-- C7 (amended): an `Err` entry anywhere in the walk stream makes the
collection phase panic (`unwrap`), aborting the run — it is fatal, not
skipped; an error-free stream collects exactly the matched targets; and
absence of the root path at start aborts the run with
`"Path … do not exist"` (src/main.rs:59-61). -/
theorem walk_error_aborts (inc ex : List String) :
    (∀ l : List (Except String Entry), (∃ m, Except.error m ∈ l) →
      collectTargetsR inc ex l = none) ∧
    (∀ (t : FsTree) (md : Nat),
      collectTargetsR inc ex ((walkT [] 0 md t).map Except.ok) =
        some (targetsOf t inc ex md)) ∧
    (∀ (args : Args) config (t : FsTree) reply ans,
      mainRun args false config t reply ans =
        Except.error ("Path " ++ args.path ++ " do not exist")) := by
  refine ⟨?_, ?_, ?_⟩
  · intro l
    induction l with
    | nil => rintro ⟨m, hm⟩; simp at hm
    | cons x xs ih =>
        rintro ⟨m, hm⟩
        rcases List.mem_cons.1 hm with rfl | hm'
        · rfl
        · cases x with
          | error e => rfl
          | ok e => simp [collectTargetsR, ih ⟨m, hm'⟩]
  · intro t md
    have haux : ∀ l : List Entry,
        collectTargetsR inc ex (l.map Except.ok) =
          some ((l.filter
            (fun e => e.isDir && targetPred inc ex e.name)).map (·.path)) := by
      intro l
      induction l with
      | nil => rfl
      | cons e es ih =>
          simp only [List.map_cons, collectTargetsR, ih, Option.map_some]
          by_cases he : (e.isDir && targetPred inc ex e.name) = true
          · simp [he, List.filter_cons]
          · simp [he, List.filter_cons]
    exact haux (walkT [] 0 md t)
  · intro args config t reply ans
    rfl

/-! ## C10 — up-front confirmation gate -/

/-- C10: whenever `force` is unset — in every mode, dry-run and interactive
included — `main` issues the single up-front confirmation prompt, which
lists every configured directory pattern, before `clean_directories` is
ever called; a non-affirmative (trimmed, lowercased) reply ends the run
successfully with `"Aborted by user."`, no traversal (no
`clean_directories` result) and no change to the tree. -/
theorem upfront_confirmation (args : Args) (config : Option Config)
    (t : FsTree) (reply : String) (ans : List String)
    (hf : args.force = false) (hr : affirmative reply = false) :
    mainRun args true config t reply ans =
      Except.ok
        { outputs := promptLines (determine_dirs_to_clean args config) ++
            ["Aborted by user."]
          tree := some t
          cleanResult := none } ∧
    (∀ d ∈ determine_dirs_to_clean args config,
      ("  - " ++ d) ∈ promptLines (determine_dirs_to_clean args config)) := by
  constructor
  · simp [mainRun, confirm_deletion, hf, hr]
  · intro d hd
    exact List.mem_cons_of_mem _
      (List.mem_append_left _ (List.mem_map_of_mem _ hd))

/-- C10 witness: with `--dry-run`, no `--force` and the reply `"q"`, the
run aborts successfully with `"Aborted by user."`, an unchanged tree and
no traversal. -/
theorem upfront_confirmation_witness :
    mainRun argsDryNoForce true none exampleTargetTree "q" [] =
      Except.ok
        { outputs := promptLines
            (determine_dirs_to_clean argsDryNoForce none) ++
            ["Aborted by user."]
          tree := some exampleTargetTree
          cleanResult := none } :=
  (upfront_confirmation argsDryNoForce none exampleTargetTree "q" []
    rfl rfl).1

/-! ## C8 — the target list is fixed before deletion starts -/

theorem removeO_none (p : List String) : removeO none p = none := rfl

theorem foldl_removeO_none (ps : List (List String)) :
    ps.foldl removeO none = none := by
  induction ps with
  | nil => rfl
  | cons p ps ih => simpa [List.foldl_cons, removeO_none] using ih

/-- The force branch folds the removals over the materialized target list,
records precisely that list as deleted, and skips nothing. -/
theorem forceExec_spec (ps : List (List String)) : ∀ st : ExecState,
    (forceExec ps st).tree = ps.foldl removeO st.tree ∧
    (forceExec ps st).deleted = st.deleted ++ ps ∧
    (forceExec ps st).skipped = st.skipped := by
  induction ps with
  | nil => intro st; simp [forceExec]
  | cons p ps ih =>
      intro st
      obtain ⟨h1, h2, h3⟩ := ih
        { tree := removeO st.tree p
          bytes := st.bytes + (sizeO st.tree p).getD 0
          deleted := st.deleted ++ [p]
          skipped := st.skipped }
      refine ⟨?_, ?_, ?_⟩
      · rw [forceExec, h1]; rfl
      · rw [forceExec, h2]; simp
      · rw [forceExec, h3]

/-- The interactive branch only ever deletes paths from the target list. -/
theorem interactiveExec_deleted_subset (ps : List (List String)) :
    ∀ ans (st : ExecState),
      (interactiveExec ps ans st).deleted ⊆ st.deleted ++ ps := by
  induction ps with
  | nil => intro ans st; simp [interactiveExec, List.Subset.refl]
  | cons p ps ih =>
      intro ans st
      by_cases ha : affirmative (ans.headD "") = true
      · rw [interactiveExec, ha]
        simp only [if_true]
        refine (ih ans.tail _).trans ?_
        intro x hx
        simp only [List.append_assoc, List.singleton_append] at hx ⊢
        exact hx
      · rw [interactiveExec, if_neg ha]
        refine (ih ans.tail _).trans ?_
        intro x hx
        simp at hx ⊢
        tauto

theorem targetsOf_eq_targetsT (t : FsTree) (inc ex : List String) (md : Nat) :
    targetsOf t inc ex md = targetsT inc ex [] 0 md t := rfl

theorem targetsT_file (inc ex : List String) (pre : List String) (d md : Nat)
    (n : String) (s : Nat) :
    targetsT inc ex pre d md (.file n s) = [] := by
  simp [targetsT, walkT, Entry.isDir]

theorem targetsF_nil (inc ex : List String) (pre : List String) (d md : Nat) :
    targetsF inc ex pre d md [] = [] := rfl

theorem targetsF_cons (inc ex : List String) (pre : List String) (d md : Nat)
    (c : FsTree) (cs : List FsTree) :
    targetsF inc ex pre d md (c :: cs) =
      targetsT inc ex pre d md c ++ targetsF inc ex pre d md cs := by
  simp [targetsF, targetsT, walkF, List.filter_append]

theorem targetsT_dir (inc ex : List String) (pre : List String) (d md : Nat)
    (n : String) (m : Option Nat) (cs : List FsTree) :
    targetsT inc ex pre d md (.dir n m cs) =
      (if targetPred inc ex n then [pre ++ [n]] else []) ++
      (if descendB md d then targetsF inc ex (pre ++ [n]) (d + 1) md cs
       else []) := by
  by_cases hp : targetPred inc ex n = true <;>
    by_cases hd : descendB md d = true <;>
      simp [targetsT, targetsF, walkT, hp, hd, List.filter_cons, Entry.isDir,
        Entry.name, Entry.path]

theorem descendB_root (md : Nat) : descendB md 0 = true := by
  cases md <;> simp [descendB]

/-- Prefixing an entry's path. -/
def prefixEntry (pre : List String) (e : Entry) : Entry :=
  ⟨pre ++ e.path, e.name, e.isDir, e.depth⟩

/-- The walk from a prefix is the prefix-free walk with prefixed paths. -/
theorem walkT_pre_factor (t : FsTree) : ∀ pre d md,
    walkT pre d md t = (walkT [] d md t).map (prefixEntry pre) := by
  refine fsInd
    (fun t => ∀ pre d md,
      walkT pre d md t = (walkT [] d md t).map (prefixEntry pre))
    (fun ts => ∀ pre d md,
      walkF pre d md ts = (walkF [] d md ts).map (prefixEntry pre))
    ?_ ?_ ?_ ?_ t
  · intro n s pre d md
    simp [walkT, prefixEntry]
  · intro n m cs ih pre d md
    by_cases hd : descendB md d = true
    · simp only [walkT, hd, if_true, List.map_cons, List.nil_append]
      refine congrArg₂ _ (by simp [prefixEntry]) ?_
      rw [ih (pre ++ [n]) (d + 1) md, ih [n] (d + 1) md, List.map_map]
      refine List.map_congr_left ?_
      intro e _
      simp [prefixEntry]
    · simp [walkT, hd, prefixEntry]
  · intro pre d md
    simp [walkF]
  · intro c cs ihc ihcs pre d md
    simp [walkF, ihc pre d md, ihcs pre d md]

/-- Targets from a prefix are the prefix-free targets with prefixed
paths. -/
theorem targetsT_pre_factor (inc ex : List String) (t : FsTree)
    (pre : List String) (d md : Nat) :
    targetsT inc ex pre d md t =
      (targetsT inc ex [] d md t).map (pre ++ ·) := by
  unfold targetsT
  rw [walkT_pre_factor t pre d md, List.filter_map, List.map_map,
    List.map_map]
  have h1 : ((fun (e : Entry) => e.isDir && targetPred inc ex e.name) ∘
      prefixEntry pre) =
      fun (e : Entry) => e.isDir && targetPred inc ex e.name :=
    funext fun e => rfl
  have h2 : ((fun (e : Entry) => e.path) ∘ prefixEntry pre) =
      ((fun x => pre ++ x) ∘ fun (e : Entry) => e.path) :=
    funext fun e => rfl
  rw [h1, h2]

/-- Forest targets from a prefix, factored likewise. -/
theorem targetsF_pre_factor (inc ex : List String) (cs : List FsTree)
    (pre : List String) (d md : Nat) :
    targetsF inc ex pre d md cs =
      (targetsF inc ex [] d md cs).map (pre ++ ·) := by
  induction cs with
  | nil => rfl
  | cons c cs ih =>
      rw [targetsF_cons, targetsF_cons, ih, targetsT_pre_factor,
        List.map_append]

/-- Every target of a forest's prefix-free walk starts with the name of
one of the forest's trees. -/
theorem targetsF_shape (inc ex : List String) (cs : List FsTree)
    (d md : Nat) :
    ∀ p ∈ targetsF inc ex [] d md cs,
      ∃ c ∈ cs, ∃ rest, p = FsTree.nameOf c :: rest := by
  induction cs with
  | nil => intro p hp; simp [targetsF_nil] at hp
  | cons c cs ih =>
      intro p hp
      rw [targetsF_cons] at hp
      rcases List.mem_append.1 hp with hp' | hp'
      · refine ⟨c, List.mem_cons_self c cs, ?_⟩
        cases c with
        | file n s => rw [targetsT_file] at hp'; simp at hp'
        | dir n m gs =>
            rw [targetsT_dir] at hp'
            rcases List.mem_append.1 hp' with h | h
            · by_cases hn : targetPred inc ex n = true
              · rw [if_pos hn] at h
                simp at h
                exact ⟨[], by simp [h, FsTree.nameOf]⟩
              · rw [if_neg hn] at h; simp at h
            · by_cases hdes : descendB md d = true
              · rw [if_pos hdes] at h
                rw [targetsF_pre_factor] at h
                obtain ⟨q, _, hq⟩ := List.mem_map.1 h
                exact ⟨q, by simp [← hq, FsTree.nameOf]⟩
              · rw [if_neg hdes] at h; simp at h
      · obtain ⟨c', hc', rest, hrest⟩ := ih p hp'
        exact ⟨c', List.mem_cons_of_mem c hc', rest, hrest⟩

/-- Every target of a forest walk is a nonempty path. -/
theorem targetsF_ne_nil (inc ex : List String) (cs : List FsTree)
    (d md : Nat) : ∀ p ∈ targetsF inc ex [] d md cs, p ≠ [] := by
  intro p hp
  obtain ⟨c, _, rest, hrest⟩ := targetsF_shape inc ex cs d md p hp
  simp [hrest]

/-- Pruning preserves a surviving node's name. -/
theorem pruneT_name (inc ex : List String) (md d : Nat) (t t' : FsTree)
    (h : pruneT inc ex md d t = some t') :
    FsTree.nameOf t' = FsTree.nameOf t := by
  cases t with
  | file n s =>
      simp only [pruneT, Option.some.injEq] at h
      rw [← h]
  | dir n m cs =>
      by_cases hp : targetPred inc ex n = true
      · simp [pruneT, hp] at h
      · simp only [pruneT, hp, Bool.false_eq_true, if_neg, if_false,
          Option.some.injEq] at h
        rw [← h]
        rfl

/-- A removal path that does not start with the head sibling's name leaves
that sibling in place and acts on the remaining siblings. -/
theorem removeInsideF_cons_of_ne (r : List String) (c : FsTree)
    (cs : List FsTree) (h : ∀ x rest, r = x :: rest → ¬x = FsTree.nameOf c) :
    removeInsideF r (c :: cs) = c :: removeInsideF r cs := by
  match r with
  | [] => rfl
  | [x] =>
      have hx : ¬x = FsTree.nameOf c := h x [] rfl
      rw [removeInsideF, removeInsideF, List.filter_cons]
      have : (!(c.isDirB && c.nameOf == x)) = true := by
        have : (c.nameOf == x) = false := by
          cases hbe : c.nameOf == x
          · rfl
          · exact absurd (eq_of_beq hbe).symm hx
        simp [this]
      rw [if_pos this]
  | x :: y :: rest =>
      have hx : ¬x = FsTree.nameOf c := h x (y :: rest) rfl
      rw [removeInsideF, removeInsideF, List.map_cons]
      cases c with
      | file n s => rfl
      | dir n m gs =>
          have : (n == x) = false := by
            cases hbe : n == x
            · rfl
            · exact absurd (eq_of_beq hbe).symm (by simpa [FsTree.nameOf] using hx)
          simp [this]

/-- Folding removals whose paths never start with the head sibling's name
leaves that sibling in place throughout. -/
theorem foldl_remove_cons_of_ne (c : FsTree) (B : List (List String)) :
    ∀ cs : List FsTree,
      (∀ p ∈ B, ∀ x rest, p = x :: rest → ¬x = FsTree.nameOf c) →
      B.foldl (fun cs' r => removeInsideF r cs') (c :: cs) =
        c :: B.foldl (fun cs' r => removeInsideF r cs') cs := by
  induction B with
  | nil => intro cs _; rfl
  | cons b B ih =>
      intro cs h
      rw [List.foldl_cons, List.foldl_cons,
        removeInsideF_cons_of_ne b c cs (h b (List.mem_cons_self b B))]
      exact ih (removeInsideF b cs)
        (fun p hp => h p (List.mem_cons_of_mem b hp))

/-- A removal path whose head names no sibling removes nothing. -/
theorem removeInsideF_noop (x : String) (r : List String)
    (cs : List FsTree) (h : ∀ u ∈ cs, ¬FsTree.nameOf u = x) :
    removeInsideF (x :: r) cs = cs := by
  match r with
  | [] =>
      rw [removeInsideF]
      refine List.filter_eq_self.2 ?_
      intro u hu
      have : (u.nameOf == x) = false := by
        cases hbe : u.nameOf == x
        · rfl
        · exact absurd (eq_of_beq hbe) (h u hu)
      simp [this]
  | y :: rest =>
      rw [removeInsideF]
      refine (List.map_congr_left ?_).trans (List.map_id cs)
      intro u hu
      cases u with
      | file n s => rfl
      | dir n m gs =>
          have : (n == x) = false := by
            cases hbe : n == x
            · rfl
            · exact absurd (eq_of_beq hbe) (by simpa [FsTree.nameOf] using h _ hu)
          simp [this]

/-- Folding removals all of whose paths have heads naming no sibling
changes nothing. -/
theorem foldl_remove_noop (B : List (List String)) (cs : List FsTree)
    (h : ∀ p ∈ B, ∃ x r, p = x :: r ∧ ∀ u ∈ cs, ¬FsTree.nameOf u = x) :
    B.foldl (fun cs' r => removeInsideF r cs') cs = cs := by
  induction B with
  | nil => rfl
  | cons b B ih =>
      obtain ⟨x, r, rfl, hx⟩ := h b (List.mem_cons_self b B)
      rw [List.foldl_cons, removeInsideF_noop x r cs hx]
      exact ih (fun p hp => h p (List.mem_cons_of_mem _ hp))

/-- Head of a distinct list differs from every later element. -/
theorem distinctB_cons (x : String) (xs : List String)
    (h : distinctB (x :: xs) = true) :
    (∀ y ∈ xs, ¬y = x) ∧ distinctB xs = true := by
  rw [distinctB, Bool.and_eq_true, Bool.not_eq_true'] at h
  obtain ⟨h1, h2⟩ := h
  exact ⟨fun y hy hyx => of_decide_eq_false h1 (hyx ▸ hy), h2⟩

/-- Removing the path `[n]` deletes the head directory named `n` and keeps
differently-named siblings. -/
theorem removeInsideF_single_self (n : String) (m : Option Nat)
    (cs rs : List FsTree) (hrest : ∀ u ∈ rs, ¬FsTree.nameOf u = n) :
    removeInsideF [n] (.dir n m cs :: rs) = rs := by
  rw [removeInsideF, List.filter_cons]
  have hhead : (!(FsTree.isDirB (.dir n m cs) &&
      FsTree.nameOf (.dir n m cs) == n)) = false := by
    simp [FsTree.isDirB, FsTree.nameOf]
  rw [if_neg (by simp [hhead])]
  refine List.filter_eq_self.2 ?_
  intro u hu
  have : (FsTree.nameOf u == n) = false := by
    cases hbe : FsTree.nameOf u == n
    · rfl
    · exact absurd (eq_of_beq hbe) (hrest u hu)
  simp [this]

/-- A removal path `n :: b` with `b` nonempty descends into the head
directory named `n` and leaves differently-named siblings alone. -/
theorem removeInsideF_into_dir (n : String) (m : Option Nat)
    (gs rs : List FsTree) (b : List String) (hb : ¬b = [])
    (hrest : ∀ u ∈ rs, ¬FsTree.nameOf u = n) :
    removeInsideF (n :: b) (.dir n m gs :: rs) =
      .dir n m (removeInsideF b gs) :: rs := by
  match b, hb with
  | y :: r, _ =>
      rw [removeInsideF, List.map_cons]
      have hnn : (n == n) = true := beq_self_eq_true n
      simp only [hnn, if_true]
      refine congrArg₂ _ rfl ?_
      refine (List.map_congr_left ?_).trans (List.map_id rs)
      intro u hu
      cases u with
      | file a s => rfl
      | dir a am ags =>
          have : (a == n) = false := by
            cases hbe : a == n
            · rfl
            · exact absurd (eq_of_beq hbe)
                (by simpa [FsTree.nameOf] using hrest _ hu)
          simp [this]

/-- Folding removals that all route through the head directory named `n`
accumulates inside that directory. -/
theorem foldl_remove_into_dir (n : String) (m : Option Nat)
    (B : List (List String)) : ∀ (gs rs : List FsTree),
    (∀ b ∈ B, ¬b = []) → (∀ u ∈ rs, ¬FsTree.nameOf u = n) →
    (B.map (n :: ·)).foldl (fun cs r => removeInsideF r cs)
        (.dir n m gs :: rs) =
      .dir n m (B.foldl (fun cs r => removeInsideF r cs) gs) :: rs := by
  induction B with
  | nil => intro gs rs _ _; rfl
  | cons b B ih =>
      intro gs rs hb hrest
      rw [List.map_cons, List.foldl_cons, List.foldl_cons,
        removeInsideF_into_dir n m gs rs b (hb b (List.mem_cons_self b B))
          hrest]
      exact ih (removeInsideF b gs) rs
        (fun b' hb' => hb b' (List.mem_cons_of_mem b hb')) hrest

/-- `remove_dir_all` at the root's own path removes the whole tree. -/
theorem removeAbs_root_self (n : String) (m : Option Nat)
    (cs : List FsTree) : removeAbs (.dir n m cs) [n] = none := by
  rw [removeAbs]
  simp [FsTree.isDirB, FsTree.nameOf]

/-- `remove_dir_all` below the root descends into the root when the first
segment is the root's name. -/
theorem removeAbs_root_descend (n : String) (m : Option Nat)
    (cs : List FsTree) (b : List String) (hb : ¬b = []) :
    removeAbs (.dir n m cs) (n :: b) =
      some (.dir n m (removeInsideF b cs)) := by
  match b, hb with
  | y :: r, _ =>
      rw [removeAbs]
      simp

/-- Folding root-level removals that all route below the root. -/
theorem foldl_removeO_into_dir (n : String) (m : Option Nat)
    (B : List (List String)) : ∀ cs : List FsTree, (∀ b ∈ B, ¬b = []) →
    (B.map (n :: ·)).foldl removeO (some (.dir n m cs)) =
      some (.dir n m (B.foldl (fun cs' r => removeInsideF r cs') cs)) := by
  induction B with
  | nil => intro cs _; rfl
  | cons b B ih =>
      intro cs hb
      rw [List.map_cons, List.foldl_cons, List.foldl_cons]
      have : removeO (some (.dir n m cs)) (n :: b) =
          some (.dir n m (removeInsideF b cs)) := by
        rw [removeO, Option.bind]
        exact removeAbs_root_descend n m cs b (hb b (List.mem_cons_self b B))
      rw [this]
      exact ih (removeInsideF b cs)
        (fun b' hb' => hb b' (List.mem_cons_of_mem b hb'))

/-- Folding the removals of a forest's materialized target list over that
forest produces exactly the one-pass pruning of the forest: the effect of
the deletion phase is fully determined by the target list computed from
the pre-deletion forest.  Needs distinct sibling names (a real
filesystem). -/
theorem fold_targetsF_prune (inc ex : List String) (cs : List FsTree) :
    ∀ d md : Nat, distinctB (cs.map FsTree.nameOf) = true → wfF cs = true →
      (targetsF inc ex [] d md cs).foldl
          (fun cs' r => removeInsideF r cs') cs =
        pruneF inc ex md d cs := by
  refine fsIndF
    (fun t => ∀ d md (rs : List FsTree), wfT t = true →
      (∀ u ∈ rs, ¬FsTree.nameOf u = FsTree.nameOf t) →
      (targetsT inc ex [] d md t).foldl (fun cs' r => removeInsideF r cs')
          (t :: rs) =
        (match pruneT inc ex md d t with
         | none => rs
         | some t' => t' :: rs))
    (fun cs => ∀ d md : Nat, distinctB (cs.map FsTree.nameOf) = true →
      wfF cs = true →
      (targetsF inc ex [] d md cs).foldl
          (fun cs' r => removeInsideF r cs') cs =
        pruneF inc ex md d cs)
    ?_ ?_ ?_ ?_ cs
  · -- file node: no targets, pruning keeps the file
    intro n s d md rs _ _
    rw [targetsT_file]
    rfl
  · -- directory node
    intro n m cs ih d md rs hwf hrest
    rw [wfT, Bool.and_eq_true] at hwf
    obtain ⟨hdist, hwff⟩ := hwf
    have hrest' : ∀ u ∈ rs, ¬FsTree.nameOf u = n := by
      simpa [FsTree.nameOf] using hrest
    rw [targetsT_dir]
    by_cases hp : targetPred inc ex n = true
    · -- the directory itself is a target: the first removal deletes it,
      -- the deeper removals find nothing
      rw [if_pos hp]
      have hnone : pruneT inc ex md d (.dir n m cs) = none := by
        rw [pruneT, if_pos hp]
      rw [hnone]
      simp only [List.nil_append, List.singleton_append, List.foldl_cons]
      rw [removeInsideF_single_self n m cs rs hrest']
      by_cases hdes : descendB md d = true
      · rw [if_pos hdes, targetsF_pre_factor]
        refine foldl_remove_noop _ rs ?_
        intro p hp'
        obtain ⟨q, hq, rfl⟩ := List.mem_map.1 hp'
        exact ⟨n, q, by simp, hrest'⟩
      · rw [if_neg hdes]
        rfl
    · -- the directory survives; removals route into it
      rw [if_neg hp]
      have hsome : pruneT inc ex md d (.dir n m cs) =
          some (.dir n m
            (if descendB md d then pruneF inc ex md (d + 1) cs else cs)) := by
        rw [pruneT, if_neg hp]
      rw [hsome]
      by_cases hdes : descendB md d = true
      · rw [if_pos hdes, if_pos hdes, targetsF_pre_factor]
        simp only [List.nil_append, List.singleton_append]
        rw [foldl_remove_into_dir n m (targetsF inc ex [] (d + 1) md cs) cs rs
            (targetsF_ne_nil inc ex cs (d + 1) md) hrest',
          ih (d + 1) md hdist hwff]
      · rw [if_neg hdes, if_neg hdes]
        rfl
  · -- empty forest
    intro d md _ _
    rfl
  · -- forest cons
    intro c cs ihc ihcs d md hdist hwff
    rw [List.map_cons] at hdist
    obtain ⟨hne, hdist'⟩ := distinctB_cons _ _ hdist
    rw [wfF, Bool.and_eq_true] at hwff
    obtain ⟨hwc, hwcs⟩ := hwff
    have hnames : ∀ u ∈ cs, ¬FsTree.nameOf u = FsTree.nameOf c := by
      intro u hu
      exact hne (FsTree.nameOf u) (List.mem_map_of_mem _ hu)
    rw [targetsF_cons, List.foldl_append,
      ihc d md cs hwc hnames]
    cases hprune : pruneT inc ex md d c with
    | none =>
        rw [pruneF, hprune]
        exact ihcs d md hdist' hwcs
    | some c' =>
        have hname : FsTree.nameOf c' = FsTree.nameOf c :=
          pruneT_name inc ex md d c c' hprune
        have hheads : ∀ p ∈ targetsF inc ex [] d md cs,
            ∀ x rest, p = x :: rest → ¬x = FsTree.nameOf c' := by
          intro p hp x rest hx heq
          obtain ⟨cc, hcc, rest', hrest'⟩ := targetsF_shape inc ex cs d md p hp
          rw [hx] at hrest'
          have : x = FsTree.nameOf cc := (List.cons.injEq _ _ _ _ ▸ hrest').1
          exact hnames cc hcc (by rw [← this, heq, hname])
        rw [foldl_remove_cons_of_ne c' (targetsF inc ex [] d md cs) cs
          hheads, ihcs d md hdist' hwcs, pruneF, hprune]

/-- Folding the removals of the materialized target list over the root
tree produces exactly the one-pass pruning of the tree. -/
theorem foldl_removeO_targets (inc ex : List String) (t : FsTree)
    (md : Nat) (h : wfT t = true) :
    (targetsOf t inc ex md).foldl removeO (some t) =
      pruneT inc ex md 0 t := by
  cases t with
  | file n s =>
      rw [targetsOf_eq_targetsT, targetsT_file]
      rfl
  | dir n m cs =>
      rw [wfT, Bool.and_eq_true] at h
      obtain ⟨hdist, hwff⟩ := h
      rw [targetsOf_eq_targetsT, targetsT_dir, descendB_root, if_pos rfl]
      by_cases hp : targetPred inc ex n = true
      · rw [if_pos hp]
        have hnone : pruneT inc ex md 0 (.dir n m cs) = none := by
          rw [pruneT, if_pos hp]
        rw [hnone]
        simp only [List.nil_append, List.singleton_append, List.foldl_cons]
        have hfirst : removeO (some (.dir n m cs)) [n] = none := by
          rw [removeO, Option.bind]
          exact removeAbs_root_self n m cs
        rw [hfirst, foldl_removeO_none]
      · rw [if_neg hp]
        have hsome : pruneT inc ex md 0 (.dir n m cs) =
            some (.dir n m (pruneF inc ex md 1 cs)) := by
          rw [pruneT, if_neg hp, descendB_root, if_pos rfl]
        rw [hsome, targetsF_pre_factor]
        simp only [List.nil_append, List.singleton_append]
        rw [foldl_removeO_into_dir n m (targetsF inc ex [] 1 md cs) cs
            (targetsF_ne_nil inc ex cs 1 md),
          fold_targetsF_prune inc ex cs 1 md hdist hwff]

/-- C8: the walk-and-match phase materializes the complete target list —
computed from the pre-deletion tree — before any deletion begins.  On a
well-formed tree the whole effect of the forced deletion phase is the
one-pass pruning of the pre-deletion tree by that fixed target set; the
recorded deletions are exactly the materialized list; and in every mode
the reported count is the length of the pre-deletion target list and
nothing outside that list is ever deleted. -/
theorem targets_fixed_before_deletion (inc ex : List String) (t : FsTree)
    (md : Nat) (ans : List String) (h : wfT t = true) :
    (clean_directories t inc ex false md false true ans).tree =
      pruneT inc ex md 0 t ∧
    (clean_directories t inc ex false md false true ans).deleted =
      targetsOf t inc ex md ∧
    (∀ (dr i f : Bool) (ans' : List String),
      (clean_directories t inc ex dr md i f ans').count =
        (targetsOf t inc ex md).length ∧
      (clean_directories t inc ex dr md i f ans').deleted ⊆
        targetsOf t inc ex md) := by
  obtain ⟨h1, h2, h3⟩ := forceExec_spec (targetsOf t inc ex md)
    ⟨some t, 0, [], []⟩
  refine ⟨?_, ?_, ?_⟩
  · show (forceExec (targetsOf t inc ex md) ⟨some t, 0, [], []⟩).tree = _
    rw [h1]
    exact foldl_removeO_targets inc ex t md h
  · show (forceExec (targetsOf t inc ex md) ⟨some t, 0, [], []⟩).deleted = _
    rw [h2]
    rfl
  · intro dr i f ans'
    refine ⟨rfl, ?_⟩
    show (match choosePolicy dr i f with
      | .dryRunPolicy => dryRunExec t (targetsOf t inc ex md)
      | .interactivePolicy =>
          interactiveExec (targetsOf t inc ex md) ans' ⟨some t, 0, [], []⟩
      | .parallelForce =>
          forceExec (targetsOf t inc ex md) ⟨some t, 0, [], []⟩).deleted ⊆
      targetsOf t inc ex md
    cases choosePolicy dr i f with
    | dryRunPolicy => simp [dryRunExec]
    | interactivePolicy =>
        simpa using interactiveExec_deleted_subset (targetsOf t inc ex md)
          ans' ⟨some t, 0, [], []⟩
    | parallelForce =>
        obtain ⟨_, hdel, _⟩ := forceExec_spec (targetsOf t inc ex md)
          ⟨some t, 0, [], []⟩
        rw [hdel]
        simp

/-- C8 witness: on the nested fixture (a matching `build` directory inside
a matching `target` directory) the forced run removes the `target` subtree
once, leaving exactly the pruned tree. -/
theorem targets_fixed_before_deletion_witness :
    wfT exampleNestedTree = true ∧
    (clean_directories exampleNestedTree ["target", "build"] [] false 0
        false true []).tree = pruneT ["target", "build"] [] 0 0
          exampleNestedTree ∧
    pruneT ["target", "build"] [] 0 0 exampleNestedTree =
      some (.dir "r" (some 1) [.file "x" 2]) ∧
    (clean_directories exampleNestedTree ["target", "build"] [] false 0
        false true []).deleted =
      [["r", "target"], ["r", "target", "build"]] :=
  ⟨rfl,
   (targets_fixed_before_deletion ["target", "build"] [] exampleNestedTree
     0 [] rfl).1,
   rfl,
   Eq.trans ((targets_fixed_before_deletion ["target", "build"] []
     exampleNestedTree 0 [] rfl).2.1) rfl⟩
